/-
Verification of the halfpike lexing/parsing library against its
natural-language specification.

The Go sources are shallowly embedded: the channel of lexer items becomes a
list, pointer-mutating methods become state-passing functions, and Go panics
become `none`/`Except.error` results.  Machine integers that only ever count
upward are modelled as `Nat`.
-/
import Mathlib

namespace Halfpike

/-- ItemType from halfpike.go (ItemUnknown, ItemEOF, ItemText, ItemInt,
ItemFloat, ItemEOL, itemSpace). -/
inductive ItemType where
  | unknown
  | eof
  | text
  | int
  | float
  | eol
  | space
deriving DecidableEq, Repr

/-- Item from halfpike.go: a token with its type and value; `lineNum` and
`raw` are populated only on ItemEOL/ItemEOF items (zero values elsewhere). -/
structure Item where
  type : ItemType
  val : String
  lineNum : Nat
  raw : String
deriving DecidableEq, Repr

/-- Line from halfpike.go. -/
structure Line where
  Items : List Item
  LineNum : Nat
  Raw : String
deriving DecidableEq, Repr

/-- Go's unicode.IsSpace: the White_Space Unicode property (the exact finite
set of code points Go tests). -/
def isSpaceRune (r : Char) : Bool :=
  (0x9 ≤ r.toNat && r.toNat ≤ 0xD) || r.toNat == 0x20 || r.toNat == 0x85 ||
  r.toNat == 0xA0 || r.toNat == 0x1680 ||
  (0x2000 ≤ r.toNat && r.toNat ≤ 0x200A) ||
  r.toNat == 0x2028 || r.toNat == 0x2029 || r.toNat == 0x202F ||
  r.toNat == 0x205F || r.toNat == 0x3000

/-- Model of strconv.Atoi (Go standard library, external to this repository):
an optional sign followed by one or more ASCII digits.  Integer-overflow
failures of Atoi are not modelled. -/
def isIntStr (s : List Char) : Bool :=
  let body := match s with
    | '+' :: rest => rest
    | '-' :: rest => rest
    | rest => rest
  !body.isEmpty && body.all (fun c => c.isDigit)

/-- Model of strconv.ParseFloat (Go standard library, external to this
repository) on decimal forms: an optional sign, then either an inf/nan word
or a mantissa (digits with at most one dot, at least one digit) with an
optional exponent.  Hex floats, underscores and overflow are not modelled. -/
def isFloatStr (s : List Char) : Bool :=
  let lower := s.map Char.toLower
  let body := match lower with
    | '+' :: rest => rest
    | '-' :: rest => rest
    | rest => rest
  if body = ['i', 'n', 'f'] || body = ['i', 'n', 'f', 'i', 'n', 'i', 't', 'y'] ||
     body = ['n', 'a', 'n'] then
    true
  else
    let mant := body.takeWhile (fun c => c ≠ 'e')
    let rest := body.dropWhile (fun c => c ≠ 'e')
    let mantOk := mant.count '.' ≤ 1 &&
      mant.all (fun c => c.isDigit || c = '.') && mant.any (fun c => c.isDigit)
    match rest with
    | [] => mantOk
    | _ :: expPart =>
      let expBody := match expPart with
        | '+' :: r => r
        | '-' :: r => r
        | r => r
      mantOk && !expBody.isEmpty && expBody.all (fun c => c.isDigit)

/-- The token (if any) the lexer emits for the pending span when a newline is
reached: the isInt/isFloat/last==itemSpace/default switch of untilSpace. -/
def classifyAtEOL (pending : List Char) (last : ItemType) : List Item :=
  if isIntStr pending then [⟨.int, String.mk pending, 0, ""⟩]
  else if isFloatStr pending then [⟨.float, String.mk pending, 0, ""⟩]
  else if last = .space then []
  else [⟨.text, String.mk pending, 0, ""⟩]

/-- The token the lexer emits for the pending span at a non-newline space:
the isInt/isFloat/default switch of untilSpace. -/
def classifyAtSpace (pending : List Char) : Item :=
  if isIntStr pending then ⟨.int, String.mk pending, 0, ""⟩
  else if isFloatStr pending then ⟨.float, String.mk pending, 0, ""⟩
  else ⟨.text, String.mk pending, 0, ""⟩

/-- untilSpace from halfpike.go, the lexer state function, embedded as a
recursion over the remaining input runes.  `raw` is the raw-text accumulator
(reset after each emitted EOL), `pending` the span since the last
emit/ignore (the lexer's input[start:pos]), `last` the type of the last
handled item.  Reaching the end of the input is Go's `r == rune(ItemEOF)`
case: the EOF item carries the pending span as its value and the raw
accumulator extended with the EOF rune(1). -/
def untilSpace (lineNum : Nat) (raw pending : List Char) (last : ItemType) :
    List Char → List Item
  | [] =>
    [⟨.eof, String.mk pending, lineNum, String.mk (raw ++ [Char.ofNat 1])⟩]
  | r :: rest =>
    if r = '\n' then
      if last = .unknown ∨ last = .eol then
        -- blank line: ignore, bump the line counter
        untilSpace (lineNum + 1) (raw ++ [r]) [] last rest
      else
        classifyAtEOL pending last ++
          ⟨.eol, "\n", lineNum, String.mk (raw ++ [r])⟩ ::
            untilSpace (lineNum + 1) [] [] .eol rest
    else if isSpaceRune r then
      if last = .unknown ∨ last = .eol ∨ last = .space then
        -- ignore previous space characters
        untilSpace lineNum (raw ++ [r]) [] last rest
      else
        classifyAtSpace pending :: untilSpace lineNum (raw ++ [r]) [] .space rest
    else
      untilSpace lineNum (raw ++ [r]) (pending ++ [r]) .text rest

/-- The full item stream the lexer produces for an input: newLexer + run with
the untilSpace start state. -/
def lexInput (s : String) : List Item :=
  untilSpace 0 [] [] .unknown s.data

/-- Parser.pull from halfpike.go: consume items from the channel until an
EOL/EOF item, moving that item's raw/lineNum onto the Line and zeroing them
on the item itself.  A closed channel (exhausted list) yields the
accumulated zero-valued Line. -/
def pullAux (acc : List Item) : List Item → Line × List Item
  | [] => (⟨acc, 0, ""⟩, [])
  | it :: rest =>
    match it.type with
    | .eof | .eol =>
      (⟨acc ++ [⟨it.type, it.val, 0, ""⟩], it.lineNum, it.raw⟩, rest)
    | _ => pullAux (acc ++ [it]) rest

def pull (recv : List Item) : Line × List Item := pullAux [] recv

/-- Fuel-bounded iteration of pull; the fuel is only a structural-recursion
device, `linesOf` always supplies enough of it. -/
def linesOfAux : Nat → List Item → List Line
  | 0, _ => []
  | Nat.succ _, [] => []
  | Nat.succ fuel, items => (pull items).1 :: linesOfAux fuel (pull items).2

/-- The sequence of Lines successive pull calls produce from an item
stream. -/
def linesOf (items : List Item) : List Line :=
  linesOfAux items.length items

/-- A well-formed lexer stream: nonempty, its final item is the unique
ItemEOF.  Every stream untilSpace produces is well formed. -/
def wfStream : List Item → Bool
  | [] => false
  | it :: rest =>
    match rest with
    | [] => it.type == ItemType.eof
    | _ :: _ => !(it.type == ItemType.eof) && wfStream rest

/-- Parser from halfpike.go: the buffered lines, the cursor, the remaining
channel contents and the sticky error field. -/
structure Parser where
  lines : List Line
  pos : Nat
  recv : List Item
  err : Option String
deriving DecidableEq, Repr

/-- newParser + the lexer goroutine: fresh state over the lexed input. -/
def newParser (input : String) : Parser :=
  ⟨[], 0, lexInput input, none⟩

/-- Parser.EOF from halfpike.go:
`line.Items[len(line.Items)-1].Type == ItemEOF`.  `none` models the
index-out-of-range panic on an empty item list. -/
def EOFline (l : Line) : Option Bool :=
  match l.Items.getLast? with
  | some it => some (it.type == ItemType.eof)
  | none => none

/-- Parser.Next from halfpike.go.  `none` models a panic (indexing or
Parser.EOF on an empty line), which is unreachable for lexer-produced
streams. -/
def Parser.next (p : Parser) : Option (Line × Parser) :=
  if p.lines.length = 0 then
    -- no items yet: pull the first line
    some ((pull p.recv).1,
      { p with lines := [(pull p.recv).1], pos := 1, recv := (pull p.recv).2 })
  else if p.lines.length ≤ p.pos then
    match p.lines.getLast? with
    | none => none
    | some lastLn =>
      match EOFline lastLn with
      | none => none
      | some true => some (lastLn, p)   -- already found the end of input
      | some false =>
        -- at the end of the slice: pull the next entry from the channel
        match (p.lines ++ [(pull p.recv).1])[p.pos]? with
        | some ln =>
          some (ln, { p with lines := p.lines ++ [(pull p.recv).1],
                             pos := p.pos + 1, recv := (pull p.recv).2 })
        | none => none
  else
    match p.lines[p.pos]? with
    | some ln => some (ln, { p with pos := p.pos + 1 })
    | none => none

/-- Parser.Backup from halfpike.go: decrement the cursor and return the line
there; `none` models the `parser.Backup() called on p.pos == 0` panic (and
out-of-range indexing). -/
def Parser.backup (p : Parser) : Option (Line × Parser) :=
  if p.pos = 0 then none
  else
    match p.lines[p.pos - 1]? with
    | some ln => some (ln, { p with pos := p.pos - 1 })
    | none => none

/-- Parser.Peek from halfpike.go: `i := p.Next(); p.Backup(); return i`. -/
def Parser.peek (p : Parser) : Option (Line × Parser) := do
  let r1 ← p.next
  let r2 ← r1.2.backup
  pure (r1.1, r2.2)

/-- Parser.Errorf from halfpike.go assigns the formatted error to `p.err`
unconditionally (the fmt.Errorf format application is modelled as the
already-formatted message string); it returns the nil ParseFn. -/
def Parser.Errorf (p : Parser) (msg : String) : Parser :=
  { p with err := some msg }

/-- Parser.HasError from halfpike.go. -/
def Parser.HasError (p : Parser) : Option String := p.err

/-- n successive Parser.Next calls, collecting the returned lines in call
order. -/
def nextN : Nat → Parser → Option (List Line × Parser)
  | 0, p => some ([], p)
  | Nat.succ n, p => do
    let r ← p.next
    let rs ← nextN n r.2
    pure (r.1 :: rs.1, rs.2)

/-- n successive Parser.Backup calls, collecting the returned lines in call
order. -/
def backupN : Nat → Parser → Option (List Line × Parser)
  | 0, p => some ([], p)
  | Nat.succ n, p => do
    let r ← p.backup
    let rs ← backupN n r.2
    pure (r.1 :: rs.1, rs.2)

/-- The step-function driver of Parse: Go's
`for state := parseObject.Start; state != nil; state = state(ctx, p)`.
A consumer's family of ParseFn function values is modelled as a type σ of
step labels with a transition function returning the updated Parser and the
next label (none = the nil ParseFn, the termination signal).  Fuel bounds
the number of iterations; `none` means the loop has not terminated within
the fuel. -/
def runSteps {σ : Type} (stepf : σ → Parser → Parser × Option σ) :
    Nat → σ → Parser → Option Parser
  | 0, _, _ => none
  | Nat.succ fuel, s, p =>
    let r := stepf s p
    match r.2 with
    | none => some r.1
    | some s' => runSteps stepf fuel s' r.1

/-- The outcome of Parse: the returned error and whether the consumer's
Validate() method was invoked. -/
structure ParseResult where
  err : Option String
  validateCalled : Bool
deriving DecidableEq, Repr

/-- Parse from halfpike.go: construct the parser over the input, drive the
step loop, then return p.HasError() if set, otherwise invoke Validate()
(modelled by its result `validate`) and return its error or success. -/
def Parse {σ : Type} (stepf : σ → Parser → Parser × Option σ) (fuel : Nat)
    (start : σ) (validate : Option String) (input : String) :
    Option ParseResult :=
  match runSteps stepf fuel start (newParser input) with
  | none => none
  | some p' =>
    match p'.HasError with
    | some e => some ⟨some e, false⟩
    | none => some ⟨validate, true⟩

/-- Skip from halfpike.go: the wildcard sentinel for FindStart/IsAtStart. -/
def Skip : String := "$.<skip>.$"

/-- The loop of Parser.IsAtStart: for each pattern atom, either it is Skip
or it must equal the value of the line item at the same position. -/
def isAtStartLoop : List Item → List String → Bool
  | _, [] => true
  | it :: irest, f :: frest =>
    (f == Skip || it.val == f) && isAtStartLoop irest frest
  | [], _ :: _ => false

/-- Parser.IsAtStart from halfpike.go. -/
def IsAtStart (line : Line) (find : List String) : Bool :=
  if find.length = 0 then true
  else if line.Items.length < find.length then false
  else isAtStartLoop line.Items find

/-- The Parser state in which Next's repeat-the-terminal-line branch fires:
the buffer is nonempty, the cursor is at (or past) its end, and the last
buffered line ends in ItemEOF. -/
def Parser.atTerminal (p : Parser) : Bool :=
  !p.lines.isEmpty && decide (p.lines.length ≤ p.pos) &&
    (match p.lines.getLast? with
     | some l => EOFline l == some true
     | none => false)

/-- The remaining channel contents after k pull calls. -/
def pullK : Nat → List Item → List Item
  | 0, items => items
  | Nat.succ k, items => (pull (pullK k items)).2

end Halfpike

namespace LinePkg

/-- ItemType from line/line.go (Unknown, ItemEOF, ItemText, ItemInt,
ItemFloat, ItemEOL, ItemSpace). -/
inductive ItemType where
  | unknown
  | eof
  | text
  | int
  | float
  | eol
  | space
deriving DecidableEq, Repr

/-- Item from line/line.go. -/
structure Item where
  type : ItemType
  val : String
deriving DecidableEq, Repr

/-- Go's unicode.IsNumber restricted to ASCII digits (the full Unicode
number-category table is external to this repository; every input
considered here is ASCII). -/
def isNumberRune (r : Char) : Bool := r.isDigit

/-- Go's `items[len(items)-1].Type == ItemSpace` test (false on an empty
item list, where Go would not reach the test). -/
def lastIsSpace (items : List Item) : Bool :=
  match items.getLast? with
  | some it => it.type == ItemType.space
  | none => false

/-- The running state of the rune loop inside line.New: the emitted items,
the token buffer and the isNumber/isFloat flags. -/
structure NewState where
  items : List Item
  buff : List Char
  isNumber : Bool
  isFloat : Bool
deriving DecidableEq, Repr

/-- The `if buff.Len() > 0` flush switch inside New (space case and after
the loop): emit Float/Int/Text according to the flags. -/
def flushItem (buff : List Char) (isNumber isFloat : Bool) : Item :=
  if isNumber && isFloat then ⟨.float, String.mk buff⟩
  else if isNumber then ⟨.int, String.mk buff⟩
  else ⟨.text, String.mk buff⟩

/-- One iteration of New's rune loop from line/line.go.  Go flushes the
buffer (`if buff.Len() > 0`) before appending the space/EOL item; the
flush-then-append sequence is written out per branch here (the buffer-empty
test is stated positively, so the first sub-branch is Go's skipped
flush). -/
def newStep (st : NewState) (r : Char) : NewState :=
  if Halfpike.isSpaceRune r then
    if st.buff.isEmpty then
      if r = '\n' then { st with items := st.items ++ [⟨.eol, "\n"⟩] }
      else { st with items := st.items ++ [⟨.space, String.mk [r]⟩] }
    else
      if r = '\n' then
        ⟨st.items ++ [flushItem st.buff st.isNumber st.isFloat] ++ [⟨.eol, "\n"⟩],
         [], false, false⟩
      else
        ⟨st.items ++ [flushItem st.buff st.isNumber st.isFloat] ++
           [⟨.space, String.mk [r]⟩], [], false, false⟩
  else if isNumberRune r then
    { st with isNumber := if st.buff.isEmpty then true else st.isNumber,
              buff := st.buff ++ [r] }
  else if r = '.' then
    { st with isFloat := if st.isNumber then true else st.isFloat,
              buff := st.buff ++ [r] }
  else
    { st with
      isNumber :=
        (st.items.isEmpty || (lastIsSpace st.items && st.buff.isEmpty)) && r = '-',
      isFloat := false, buff := st.buff ++ [r] }

/-- The final `if buff.Len() > 0` flush after New's rune loop. -/
def finishItems (st : NewState) : List Item :=
  if st.buff.isEmpty then st.items
  else st.items ++ [flushItem st.buff st.isNumber st.isFloat]

/-- The item list line.New computes: the rune loop, the final flush, then
the terminal fixup `if items[len(items)-1].Type != ItemEOL append ItemEOF`.
`none` models the index-out-of-range panic of that fixup when no item was
produced (empty input). -/
def NewItems (line : List Char) : Option (List Item) :=
  match (finishItems (line.foldl newStep ⟨[], [], false, false⟩)).getLast? with
  | none => none
  | some it =>
    if it.type ≠ ItemType.eol then
      some (finishItems (line.foldl newStep ⟨[], [], false, false⟩) ++
        [⟨ItemType.eof, ""⟩])
    else some (finishItems (line.foldl newStep ⟨[], [], false, false⟩))

/-- Lexer from line/line.go: the lexed items and the cursor index. -/
structure Lexer where
  items : List Item
  index : Nat
deriving DecidableEq, Repr

/-- line.New: lex the line and position the cursor at 0; `none` when New
panics (empty input). -/
def New (line : String) : Option Lexer :=
  match NewItems line.data with
  | some items => some ⟨items, 0⟩
  | none => none

/-- Lexer.Next from line/line.go: return the item at the index, advancing
unless that item is ItemEOL; past the end, return the final item.  `none`
models the out-of-range panic when the item list is empty. -/
def Lexer.next (l : Lexer) : Option (Item × Lexer) :=
  if h : l.index < l.items.length then
    if (l.items.get ⟨l.index, h⟩).type = ItemType.eol then
      some (l.items.get ⟨l.index, h⟩, l)
    else some (l.items.get ⟨l.index, h⟩, { l with index := l.index + 1 })
  else
    match l.items.getLast? with
    | some it => some (it, l)
    | none => none

/-- Lexer.Backup from line/line.go: move back one item when possible
(`if l.index-1 >= 0`). -/
def Lexer.backup (l : Lexer) : Lexer :=
  if 1 ≤ l.index then { l with index := l.index - 1 } else l

/-- Lexer.Peek from line/line.go: Next then Backup, returning Next's
item. -/
def Lexer.peek (l : Lexer) : Option (Item × Lexer) :=
  match l.next with
  | some r => some (r.1, r.2.backup)
  | none => none

/-- Lexer.SetIndex from line/line.go; `none` models the log.Fatalf abort on
an out-of-range index. -/
def Lexer.setIndex (l : Lexer) (i : Nat) : Option Lexer :=
  if i < l.items.length then some { l with index := i } else none

/-- Lexer.Len from line/line.go. -/
def Lexer.Len (l : Lexer) : Nat := l.items.length

/-- Lexer.Index from line/line.go. -/
def Lexer.Index (l : Lexer) : Nat := l.index

/-- The cursor operations of the single-line Lexer. -/
inductive LexOp where
  | next
  | backup
  | peek
  | setIndex (i : Nat)
deriving DecidableEq, Repr

/-- Apply one cursor operation; `none` propagates a fatal failure. -/
def applyOp (l : Lexer) : LexOp → Option Lexer
  | .next => (Lexer.next l).map (fun r => r.2)
  | .backup => some l.backup
  | .peek => (Lexer.peek l).map (fun r => r.2)
  | .setIndex i => l.setIndex i

/-- Apply a sequence of cursor operations. -/
def runOps : Lexer → List LexOp → Option Lexer
  | l, [] => some l
  | l, op :: ops =>
    match applyOp l op with
    | some l' => runOps l' ops
    | none => none

/-- Position of the last character of a run that is neither a digit nor a
dot, if any. -/
def lastNonNumericIdx : List Char → Option Nat
  | [] => none
  | c :: rest =>
    match lastNonNumericIdx rest with
    | some j => some (j + 1)
    | none => if !(isNumberRune c || c = '.') then some 0 else none

/-- Reference classification of one maximal non-space run, following the
amended specification text: a run of digits and dots beginning with a digit
is numeric; otherwise the run is numeric exactly when its last character
that is neither a digit nor a dot is a minus sign that either lies in the
very first run of the line or is the first character of a run immediately
following a space token; a numeric run is Float when a dot occurs after
that arming position and Integer otherwise; every other run is Text. -/
def classifyRun (firstRun afterSpace : Bool) (run : List Char) : ItemType :=
  match lastNonNumericIdx run with
  | some j =>
    if run.getD j ' ' = '-' && (firstRun || (afterSpace && j == 0)) then
      if (run.drop (j + 1)).any (fun c => c = '.') then .float else .int
    else .text
  | none =>
    match run with
    | [] => .text
    | c :: rest =>
      if isNumberRune c then
        if rest.any (fun c => c = '.') then .float else .int
      else .text

/-- One character of the isNumber/isFloat flag scan of a run, as the
amended specification words it: a digit arms the numeric flag when it is
the run's first character; a dot sets the float flag while numeric; any
other character clears both flags, except that a minus sign re-arms the
numeric flag inside the line's first run or as the first character of a
run that follows a Space token. -/
def runFlagsStep (firstRun afterSpace isFirst : Bool) (nf : Bool × Bool)
    (r : Char) : Bool × Bool :=
  if isNumberRune r then (if isFirst then true else nf.1, nf.2)
  else if r = '.' then (nf.1, if nf.1 then true else nf.2)
  else ((firstRun || (afterSpace && isFirst)) && r = '-', false)

/-- The flag scan over a whole run (isFirst tracks whether the buffer is
still empty, i.e. whether the next character is the run's first). -/
def runFlags (firstRun afterSpace : Bool) : Bool → Bool × Bool → List Char → Bool × Bool
  | _, nf, [] => nf
  | isFirst, nf, r :: rest =>
    runFlags firstRun afterSpace false
      (runFlagsStep firstRun afterSpace isFirst nf r) rest

/-- Closed form of the final flag pair of a run: armed by a leading digit
of an all-numeric run or by the last non-numeric character when it is a
well-placed minus sign; float exactly when a dot follows the arming
position. -/
def closedFlags (firstRun afterSpace : Bool) (run : List Char) : Bool × Bool :=
  match lastNonNumericIdx run with
  | some j =>
    if run.getD j ' ' = '-' && (firstRun || (afterSpace && j == 0)) then
      (true, (run.drop (j + 1)).any (fun c => c = '.'))
    else (false, false)
  | none =>
    match run with
    | [] => (false, false)
    | c :: rest =>
      if isNumberRune c then (true, rest.any (fun c => c = '.'))
      else (false, false)

/-- Reference lexer body, following the specification text: each space
character becomes its own Space token (EndOfLine for a newline) and each
maximal non-space run becomes one token classified by classifyRun.
`firstRun` records that no token has been produced yet; `afterSpace` that
the previous token is a Space token. -/
def refLexGo (firstRun afterSpace : Bool) (cs : List Char) : List Item :=
  match cs with
  | [] => []
  | c :: cs' =>
    if Halfpike.isSpaceRune c then
      (if c = '\n' then Item.mk .eol "\n" else Item.mk .space (String.mk [c])) ::
        refLexGo false (c != '\n') cs'
    else
      let run := c :: cs'.takeWhile (fun x => !Halfpike.isSpaceRune x)
      let rest := cs'.dropWhile (fun x => !Halfpike.isSpaceRune x)
      Item.mk (classifyRun firstRun afterSpace run) (String.mk run) ::
        refLexGo false false rest
termination_by cs.length
decreasing_by
  · simp_wf
  · simp_wf
    have h : ∀ l : List Char,
        (l.dropWhile (fun x => !Halfpike.isSpaceRune x)).length ≤ l.length := by
      intro l
      induction l with
      | nil => simp [List.dropWhile]
      | cons a l ih =>
        simp only [List.dropWhile]
        split
        · exact Nat.le_trans ih (Nat.le_succ _)
        · simp
    exact Nat.lt_succ_of_le (h _)

/-- The terminal rule as the specification words it: fail when no token was
produced, otherwise append one EndOfInput token unless the sequence already
ends in EndOfLine. -/
def refFixup (items : List Item) : Option (List Item) :=
  match items.getLast? with
  | none => none
  | some it =>
    if it.type = ItemType.eol then some items
    else some (items ++ [⟨ItemType.eof, ""⟩])

/-- The reference single-line lexer, following the specification text. -/
def refNew (line : List Char) : Option (List Item) :=
  refFixup (refLexGo true false line)

/-- DecodeList from line/line.go: the list-decoder configuration. -/
structure DecodeList where
  LeftConstraint : String
  RightConstraint : String
  Separator : String
  EntryQuote : String
  EscapeCharacter : String
deriving DecidableEq, Repr

/-- DecodeList.setup from line/line.go: validate the configuration,
returning the error when one of the checks fails. -/
def DecodeList.setup (d : DecodeList) : Option String :=
  if d.LeftConstraint = "" then some "LeftConstraint cannot be empty"
  else if d.RightConstraint = "" then some "RightConstraint cannot be empty"
  else if d.Separator.length ≠ 1 then
    some "Separator cannot be empty or more than 1 character"
  else if Halfpike.isSpaceRune (d.Separator.data.getD 0 (Char.ofNat 0)) then
    some "Separator cannot be a space character"
  else if d.EntryQuote = "" then some "EntryQuote must be a quote character"
  else if d.EntryQuote ≠ "\"" && d.EntryQuote ≠ "\x27" then
    some "EntryQuote must be a quote character"
  else none

/-- The mutable locals of DecodeList.Decode. -/
structure DecState where
  foundLeft : Bool
  foundRight : Bool
  inQuote : Bool
  read : Nat
  last : Char
  lastNonSpace : Char
  entry : List Char
  results : List String
deriving DecidableEq, Repr

/-- Decode's initial locals; last/lastNonSpace start as the zero rune. -/
def initDecState : DecState :=
  ⟨false, false, false, 0, Char.ofNat 0, Char.ofNat 0, [], []⟩

/-- The per-rune closure inside DecodeList.Decode.  `restChars` is the
remainder of the current item after this rune (Go's reader.Len() > 0 test).
The closure's deferred update of last/lastNonSpace is applied on the
successful paths; on an error Decode returns at once, so the deferred
update is unobservable there. -/
def procChar (lc rc sep q esc : Char) (st : DecState) (r : Char)
    (restChars : List Char) : Except String DecState :=
  let finish : DecState → DecState := fun s =>
    { s with last := r,
             lastNonSpace := if !Halfpike.isSpaceRune r then r else s.lastNonSpace }
  let read := st.read + 1
  let st := { st with read := read }
  if read = 2 && !st.foundLeft then
    .error "list should receive the left constraint as its first character"
  else if r = lc then
    if st.foundLeft && !st.inQuote then
      .error "found two left constraints in the list"
    else if st.inQuote then .ok (finish { st with entry := st.entry ++ [r] })
    else .ok (finish { st with foundLeft := true })
  else if Halfpike.isSpaceRune r then
    if st.inQuote then .ok (finish { st with entry := st.entry ++ [r] })
    else .ok (finish st)
  else if r = q then
    if esc ≠ Char.ofNat 0 && st.last = esc then
      .ok (finish { st with entry := st.entry ++ [r] })
    else if st.inQuote then
      .ok (finish { st with results := st.results ++ [String.mk st.entry],
                            entry := [], inQuote := false })
    else .ok (finish { st with inQuote := true })
  else if r = sep then
    if st.inQuote then .ok (finish { st with entry := st.entry ++ [r] })
    else if st.lastNonSpace = q then .ok (finish st)
    else if Halfpike.isSpaceRune st.last && st.lastNonSpace = q then
      .ok (finish st)
    else .error "found a list entry separator in a weird place"
  else if r = rc then
    if read = 1 then
      .error "the list close character cannot be the first character in a list"
    else if st.inQuote then .ok (finish { st with entry := st.entry ++ [r] })
    else if !restChars.isEmpty then .error "cannot close a list here"
    else .ok (finish { st with foundRight := true })
  else .ok (finish { st with entry := st.entry ++ [r] })

/-- Run the per-rune closure over the runes of one item value. -/
def procChars (lc rc sep q esc : Char) : DecState → List Char → Except String DecState
  | st, [] => .ok st
  | st, r :: rest =>
    match procChar lc rc sep q esc st r rest with
    | .error e => .error e
    | .ok st' => procChars lc rc sep q esc st' rest

/-- The outer item loop of DecodeList.Decode: return the results once the
right constraint was found, reject EOL/EOF items, and otherwise process the
item's runes.  In Go the loop spins forever if the lexer is exhausted on a
non-terminal final item, which cannot happen for a New-produced lexer; the
fuel only bounds that unreachable case. -/
def decodeLoop (lc rc sep q esc : Char) :
    Nat → DecState → Lexer → Except String (List String × Lexer)
  | 0, _, _ => .error "lexer did not terminate"
  | Nat.succ fuel, st, l =>
    if st.foundRight then .ok (st.results, l)
    else
      match l.next with
      | none => .error "lexer has no items"
      | some r =>
        if r.1.type = ItemType.eof || r.1.type = ItemType.eol then
          .error "list did not have ending character"
        else
          match procChars lc rc sep q esc st r.1.val.data with
          | .error e => .error e
          | .ok st' => decodeLoop lc rc sep q esc fuel st' r.2

/-- DecodeList.Decode from line/line.go. -/
def DecodeList.Decode (d : DecodeList) (l : Lexer) :
    Except String (List String × Lexer) :=
  match d.setup with
  | some e => .error e
  | none =>
    let lc := d.LeftConstraint.data.getD 0 (Char.ofNat 0)
    let rc := d.RightConstraint.data.getD 0 (Char.ofNat 0)
    let sep := d.Separator.data.getD 0 (Char.ofNat 0)
    let q := d.EntryQuote.data.getD 0 (Char.ofNat 0)
    let esc :=
      if d.EscapeCharacter = "" then Char.ofNat 0
      else d.EscapeCharacter.data.getD 0 (Char.ofNat 0)
    decodeLoop lc rc sep q esc (l.items.length + 1) initDecState l

end LinePkg

/-
Theorems.  Helper lemmas come first, then one theorem per claim (with its
counterexample and witness where applicable).
-/

namespace Halfpike

theorem pullAux_rest_length (items : List Item) :
    ∀ acc, (pullAux acc items).2.length ≤ items.length := by
  induction items with
  | nil => intro acc; simp [pullAux]
  | cons it rest ih =>
    intro acc
    simp only [pullAux]
    cases it.type <;> simp <;> exact le_trans (ih _) (Nat.le_succ _)

theorem pull_rest_length_lt (items : List Item) (h : items ≠ []) :
    (pull items).2.length < items.length := by
  cases items with
  | nil => exact absurd rfl h
  | cons it rest =>
    simp only [pull, pullAux]
    cases it.type <;> simp <;>
      exact Nat.lt_succ_of_le (pullAux_rest_length rest _)

theorem linesOfAux_irrel :
    ∀ fuel fuel' items, items.length ≤ fuel → items.length ≤ fuel' →
      linesOfAux fuel items = linesOfAux fuel' items := by
  intro fuel
  induction fuel with
  | zero =>
    intro fuel' items h _
    have : items = [] := List.length_eq_zero.mp (Nat.le_zero.mp h)
    subst this
    cases fuel' <;> rfl
  | succ fuel ih =>
    intro fuel' items h h'
    cases items with
    | nil => cases fuel' <;> rfl
    | cons it rest =>
      cases fuel' with
      | zero => exact absurd h' (by simp)
      | succ fuel'' =>
        simp only [linesOfAux]
        have hlt : ((pull (it :: rest)).2).length < (it :: rest).length :=
          pull_rest_length_lt _ (by simp)
        have h1 : ((pull (it :: rest)).2).length ≤ fuel :=
          Nat.le_of_lt_succ (Nat.lt_of_lt_of_le hlt h)
        have h2 : ((pull (it :: rest)).2).length ≤ fuel'' :=
          Nat.le_of_lt_succ (Nat.lt_of_lt_of_le hlt h')
        rw [ih fuel'' _ h1 h2]

theorem linesOf_cons (items : List Item) (h : items ≠ []) :
    linesOf items = (pull items).1 :: linesOf (pull items).2 := by
  cases items with
  | nil => exact absurd rfl h
  | cons it rest =>
    show linesOfAux (it :: rest).length (it :: rest) = _
    simp only [List.length_cons, linesOfAux]
    congr 1
    exact linesOfAux_irrel _ _ _
      (Nat.le_of_lt_succ (by simpa using pull_rest_length_lt (it :: rest) (by simp)))
      le_rfl

/-- Claim C1 (corrected), counterexample: recording "m1" and then "m2" in
the same session leaves HasError reporting "m2", not the first error
"m1". -/
theorem Errorf_overwrite_cex :
    (((newParser "abc").Errorf "m1").Errorf "m2").HasError = some "m2" ∧
      ¬ (((newParser "abc").Errorf "m1").Errorf "m2").HasError = some "m1" := by
  constructor
  · rfl
  · intro h
    simp [Parser.Errorf, Parser.HasError] at h

/-- Claim C1 (amended): Parser.Errorf overwrites the stored error
unconditionally, so after Errorf(m1) then Errorf(m2) in the same session
HasError reports the latest error m2. -/
theorem Errorf_last_wins (p : Parser) (m1 m2 : String) :
    ((p.Errorf m1).Errorf m2).HasError = some m2 := rfl

/-- Claim C2: Parse drives the step loop and, once the loop terminates in
parser state p', invokes the consumer's Validate() exactly when the sticky
error is unset, returning the sticky error if set, otherwise the
validator's error, otherwise success. -/
theorem Parse_validator_contract {σ : Type}
    (stepf : σ → Parser → Parser × Option σ) (fuel : Nat) (start : σ)
    (validate : Option String) (input : String) (p' : Parser)
    (h : runSteps stepf fuel start (newParser input) = some p') :
    Parse stepf fuel start validate input =
      some ⟨p'.err.elim validate some, p'.err.isNone⟩ := by
  unfold Parse
  rw [h]
  cases herr : p'.err <;> simp [Parser.HasError, herr]

/-- Witness for C2: a single step that records an error; Parse returns that
sticky error and reports the validator as not invoked, even though the
validator would have failed with its own error. -/
theorem Parse_validator_contract_witness :
    Parse (fun (_ : Unit) (p : Parser) => (p.Errorf "boom", none)) 1 ()
        (some "vErr") "x" = some ⟨some "boom", false⟩ := by
  have h := Parse_validator_contract
    (fun (_ : Unit) (p : Parser) => (p.Errorf "boom", none)) 1 ()
    (some "vErr") "x" ((newParser "x").Errorf "boom") rfl
  simpa [Parser.Errorf, newParser] using h

/-- Claim C3 (code bug evidence): the tokenizer numbers lines from 0, not
from 1 as the Line documentation and the specification state: for the
input "a\nb\n" the three delivered lines carry LineNum 0, 1 and 2. -/
theorem lexInput_lineNum_zero_based :
    (linesOf (lexInput "a\nb\n")).map (fun l => l.LineNum) = [0, 1, 2] := by
  decide

theorem isAtStartLoop_iff (dflt : Item) :
    ∀ (items : List Item) (find : List String),
      find.length ≤ items.length →
      (isAtStartLoop items find = true ↔
        ∀ i, i < find.length →
          find.getD i "" = Skip ∨ (items.getD i dflt).val = find.getD i "") := by
  intro items
  induction items with
  | nil =>
    intro find h
    have : find = [] := List.length_eq_zero.mp (Nat.le_zero.mp (by simpa using h))
    subst this
    simp [isAtStartLoop]
  | cons it irest ih =>
    intro find h
    cases find with
    | nil => simp [isAtStartLoop]
    | cons f frest =>
      simp only [isAtStartLoop, Bool.and_eq_true, Bool.or_eq_true, beq_iff_eq]
      rw [ih frest (by simpa using h)]
      constructor
      · rintro ⟨h0, hrest⟩ i hi
        cases i with
        | zero => simpa using h0
        | succ j =>
          have := hrest j (by simpa using hi)
          simpa using this
      · intro hall
        constructor
        · have := hall 0 (by simp)
          simpa using this
        · intro j hj
          have := hall (j + 1) (by simpa using hj)
          simpa using this

/-- Claim C6: IsAtStart accepts the empty pattern, rejects any pattern
longer than the line, and otherwise matches exactly when every pattern atom
is the Skip wildcard or equals the item value at its position. -/
theorem IsAtStart_contract (line : Line) (find : List String) :
    (find = [] → IsAtStart line find = true) ∧
    (line.Items.length < find.length → IsAtStart line find = false) ∧
    (find.length ≤ line.Items.length →
      (IsAtStart line find = true ↔
        ∀ i, i < find.length →
          find.getD i "" = Skip ∨
            (line.Items.getD i ⟨ItemType.unknown, "", 0, ""⟩).val =
              find.getD i "")) := by
  refine ⟨fun h => ?_, fun h => ?_, fun h => ?_⟩
  · subst h; rfl
  · have hne : find.length ≠ 0 := by
      intro h0
      rw [h0] at h
      exact Nat.not_lt_zero _ h
    simp [IsAtStart, hne, h]
  · by_cases h0 : find.length = 0
    · have : find = [] := List.length_eq_zero.mp h0
      subst this
      simp [IsAtStart]
    · have hnl : ¬ line.Items.length < find.length := Nat.not_lt.mpr h
      simp only [IsAtStart, if_neg h0, if_neg hnl]
      exact isAtStartLoop_iff _ line.Items find h

/-- Witness for C6: the pattern with a literal and a Skip wildcard matched
against a concrete three-item line. -/
theorem IsAtStart_contract_witness :
    IsAtStart
        ⟨[⟨ItemType.text, "Time", 0, ""⟩, ⟨ItemType.text, "Now:", 0, ""⟩,
          ⟨ItemType.eof, "", 0, ""⟩], 0, ""⟩ ["Time", Skip] = true := by
  exact ((IsAtStart_contract
    ⟨[⟨ItemType.text, "Time", 0, ""⟩, ⟨ItemType.text, "Now:", 0, ""⟩,
      ⟨ItemType.eof, "", 0, ""⟩], 0, ""⟩ ["Time", Skip]).2.2
    (by decide)).mpr (by decide)

/-- Claim C4 (corrected), counterexample: on the input "a", after one Next
the parser sits at the terminal line with cursor 1, and Peek moves the
cursor back to 0 instead of leaving it unchanged. -/
theorem Peek_cursor_cex :
    ((newParser "a").next.bind (fun r => r.2.peek)).map (fun r => r.2.pos) =
        some 0 ∧
      ((newParser "a").next.map (fun r => r.2.pos)) = some 1 := by
  decide

/-- Claim C5 (corrected), counterexample: on the one-line input "a" both
Next calls of a 2-Next/2-Backup round trip succeed (the second repeats the
terminal line), but the second Backup is the fatal
`parser.Backup() called on p.pos == 0` panic. -/
theorem roundtrip_cex :
    ((nextN 2 (newParser "a")).bind (fun r => backupN 2 r.2)) = none ∧
      (nextN 2 (newParser "a")).isSome = true := by
  decide

end Halfpike

namespace LinePkg

/-- Claim C7 (corrected), counterexample: the run "1.2.3" contains two
embedded dots, so under the claimed rule it would be Text, but line.New
classifies it as Float. -/
theorem classify_dots_cex :
    NewItems "1.2.3".data =
        some [⟨ItemType.float, "1.2.3"⟩, ⟨ItemType.eof, ""⟩] ∧
      ItemType.float ≠ ItemType.text := by
  decide

/-- Claim C8 (corrected), counterexample: line.New panics on the empty
string (index-out-of-range on the terminal-fixup check), so it does not
return normally for every input. -/
theorem New_empty_cex : New "" = none := by decide

end LinePkg

namespace Halfpike

/-- Claim C4 (amended): Peek always returns the Line an immediately
following Next would return; it leaves the cursor unchanged except in the
terminal state (cursor at the end of a buffer whose last line ends in
ItemEOF), where Next repeats the terminal line without advancing and the
Backup inside Peek therefore moves the cursor back by one. -/
theorem Peek_contract (p : Parser) (hwf : p.pos ≤ p.lines.length)
    (h0 : p.lines = [] → p.pos = 0) (ln : Line) (p' : Parser)
    (h : p.peek = some (ln, p')) :
    (∃ q, p.next = some (ln, q)) ∧
      p'.pos = (if p.atTerminal then p.pos - 1 else p.pos) := by
  simp only [Parser.peek, Option.bind_eq_bind, Option.bind_eq_some, Option.pure_def,
    Option.some.injEq, Prod.mk.injEq] at h
  obtain ⟨⟨ln1, p1⟩, hnext, ⟨ln2, p2⟩, hb, hln, hp'⟩ := h
  subst hln
  subst hp'
  refine ⟨⟨p1, hnext⟩, ?_⟩
  rw [Parser.next] at hnext
  split at hnext
  · -- first Next ever: pulls the first line, sets pos := 1
    rename_i hL
    have hplines : p.lines = [] := List.length_eq_zero.mp hL
    have hppos : p.pos = 0 := h0 hplines
    simp only [Option.some.injEq, Prod.mk.injEq] at hnext
    have hp1 : p1 = ⟨[(pull p.recv).1], 1, (pull p.recv).2, p.err⟩ := hnext.2.symm
    rw [Parser.backup, hp1] at hb
    norm_num at hb
    have hterm : p.atTerminal = false := by
      simp [Parser.atTerminal, hplines]
    rw [hterm, if_neg Bool.false_ne_true, hppos, ← hb.2]
  · split at hnext
    · -- next at the end of the buffer: case split on the match results
      rename_i hL hge
      split at hnext
      · exact absurd hnext (by simp)
      · rename_i lastLn hlast
        have hne : p.lines ≠ [] := fun hh => hL (by simp [hh])
        have hpos : p.pos = p.lines.length := Nat.le_antisymm hwf hge
        split at hnext
        · exact absurd hnext (by simp)
        · -- terminal branch: Next repeats, Backup decrements
          rename_i hEOF
          simp only [Option.some.injEq, Prod.mk.injEq] at hnext
          have hp1 : p1 = p := hnext.2.symm
          rw [Parser.backup, hp1] at hb
          have hpz : ¬ p.pos = 0 := by
            intro hz
            rw [hz] at hpos
            exact hne (List.length_eq_zero.mp hpos.symm)
          rw [if_neg hpz] at hb
          split at hb
          · simp only [Option.some.injEq, Prod.mk.injEq] at hb
            have hterm : p.atTerminal = true := by
              simp [Parser.atTerminal, hne, hge, hlast, hEOF]
            rw [hterm, if_pos rfl, ← hb.2]
          · exact absurd hb (by simp)
        · -- pull-a-new-line branch
          rename_i hEOF
          split at hnext
          · rename_i ln0 hidx
            simp only [Option.some.injEq, Prod.mk.injEq] at hnext
            have hp1 : p1 =
                ⟨p.lines ++ [(pull p.recv).1], p.pos + 1, (pull p.recv).2, p.err⟩ :=
              hnext.2.symm
            rw [Parser.backup, hp1] at hb
            have hpz : ¬ p.pos + 1 = 0 := by omega
            rw [if_neg hpz] at hb
            simp only [Nat.add_sub_cancel] at hb
            split at hb
            · simp only [Option.some.injEq, Prod.mk.injEq] at hb
              have hterm : p.atTerminal = false := by
                simp [Parser.atTerminal, hne, hge, hlast, hEOF]
              rw [hterm, if_neg Bool.false_ne_true, ← hb.2]
            · exact absurd hb (by simp)
          · exact absurd hnext (by simp)
    · -- cursor strictly inside the buffer
      rename_i hL hge
      split at hnext
      · rename_i ln0 hidx
        simp only [Option.some.injEq, Prod.mk.injEq] at hnext
        have hp1 : p1 = ⟨p.lines, p.pos + 1, p.recv, p.err⟩ := hnext.2.symm
        rw [Parser.backup, hp1] at hb
        have hpz : ¬ p.pos + 1 = 0 := by omega
        rw [if_neg hpz] at hb
        simp only [Nat.add_sub_cancel] at hb
        split at hb
        · simp only [Option.some.injEq, Prod.mk.injEq] at hb
          have hterm : p.atTerminal = false := by
            simp [Parser.atTerminal, hge]
          rw [hterm, if_neg Bool.false_ne_true, ← hb.2]
        · exact absurd hb (by simp)
      · exact absurd hnext (by simp)

end Halfpike

namespace LinePkg

theorem Lexer.next_spec (l : Lexer) (r : Item × Lexer) (h : l.next = some r) :
    r.2.items = l.items ∧ (l.index ≤ l.items.length → r.2.index ≤ l.items.length) := by
  rw [Lexer.next] at h
  split at h
  · rename_i hlt
    split at h
    · simp only [Option.some.injEq] at h
      subst h
      exact ⟨rfl, fun h2 => h2⟩
    · simp only [Option.some.injEq] at h
      subst h
      exact ⟨rfl, fun _ => hlt⟩
  · split at h
    · simp only [Option.some.injEq] at h
      subst h
      exact ⟨rfl, fun h2 => h2⟩
    · simp at h

theorem Lexer.backup_spec (l : Lexer) :
    (l.backup).items = l.items ∧ (l.backup).index ≤ l.index := by
  rw [Lexer.backup]
  split
  · exact ⟨rfl, Nat.sub_le _ _⟩
  · exact ⟨rfl, le_rfl⟩

theorem applyOp_items_le (l : Lexer) (op : LexOp) (l' : Lexer)
    (h : applyOp l op = some l') :
    l'.items = l.items ∧ (l.index ≤ l.items.length → l'.index ≤ l.items.length) := by
  cases op with
  | next =>
    simp only [applyOp] at h
    cases hn : l.next with
    | none => rw [hn] at h; simp at h
    | some r =>
      rw [hn] at h
      simp only [Option.map_some', Option.some.injEq] at h
      subst h
      exact Lexer.next_spec l r hn
  | backup =>
    simp only [applyOp, Option.some.injEq] at h
    subst h
    exact ⟨(Lexer.backup_spec l).1,
      fun h2 => le_trans (le_trans (Lexer.backup_spec l).2 le_rfl) h2⟩
  | peek =>
    simp only [applyOp, Lexer.peek] at h
    cases hn : l.next with
    | none => rw [hn] at h; simp at h
    | some r =>
      rw [hn] at h
      simp only [Option.map_some', Option.some.injEq] at h
      subst h
      have h1 := Lexer.next_spec l r hn
      have h2 := Lexer.backup_spec r.2
      exact ⟨h2.1.trans h1.1,
        fun hle => le_trans h2.2 (h1.2 hle)⟩
  | setIndex i =>
    simp only [applyOp, Lexer.setIndex] at h
    split at h
    · rename_i hlt
      simp only [Option.some.injEq] at h
      subst h
      exact ⟨rfl, fun _ => le_of_lt hlt⟩
    · simp at h

theorem runOps_le (ops : List LexOp) :
    ∀ (l l' : Lexer), runOps l ops = some l' → l.index ≤ l.items.length →
      l'.index ≤ l'.items.length := by
  induction ops with
  | nil =>
    intro l l' h hle
    simp only [runOps, Option.some.injEq] at h
    subst h
    exact hle
  | cons op ops ih =>
    intro l l' h hle
    simp only [runOps] at h
    cases ha : applyOp l op with
    | none => rw [ha] at h; simp at h
    | some l1 =>
      rw [ha] at h
      have h1 := applyOp_items_le l op l1 ha
      exact ih l1 l' h (h1.1 ▸ h1.2 hle)

/-- Claim C10: for a New-produced Lexer and any sequence of cursor
operations whose SetIndex arguments stay in range (so no operation aborts),
the cursor always satisfies 0 ≤ Index ≤ Len (Index is a Nat, so only the
upper bound is non-trivial); Backup at index 0 leaves the index at 0
without failing; and Next at an ItemEOL item returns that item without
advancing the index. -/
theorem Lexer_cursor_invariant :
    (∀ (s : String) (lx : Lexer) (ops : List LexOp) (l' : Lexer),
        New s = some lx → runOps lx ops = some l' → l'.Index ≤ l'.Len) ∧
    (∀ l : Lexer, l.index = 0 → l.backup = l) ∧
    (∀ (l : Lexer) (h : l.index < l.items.length),
        (l.items.get ⟨l.index, h⟩).type = ItemType.eol →
        l.next = some (l.items.get ⟨l.index, h⟩, l)) := by
  refine ⟨fun s lx ops l' hnew hrun => ?_, fun l h => ?_, fun l h heol => ?_⟩
  · have h0 : lx.index = 0 := by
      rw [New] at hnew
      split at hnew
      · simp only [Option.some.injEq] at hnew
        rw [← hnew]
      · simp at hnew
    exact runOps_le ops lx l' hrun (by rw [h0]; exact Nat.zero_le _)
  · rw [Lexer.backup, if_neg (by omega)]
  · rw [Lexer.next, dif_pos h, if_pos heol]

/-- Witness for C10: the three parts at concrete inputs: a run of
next/peek/backup/setIndex operations over the lexer of "a b", Backup on a
fresh lexer, and Next at the EOL item of "a\n". -/
theorem Lexer_cursor_invariant_witness :
    (∀ l', New "a b" = some ⟨[⟨ItemType.text, "a"⟩, ⟨ItemType.space, " "⟩,
        ⟨ItemType.text, "b"⟩, ⟨ItemType.eof, ""⟩], 0⟩ →
      runOps ⟨[⟨ItemType.text, "a"⟩, ⟨ItemType.space, " "⟩,
        ⟨ItemType.text, "b"⟩, ⟨ItemType.eof, ""⟩], 0⟩
        [.next, .peek, .setIndex 3, .next, .backup] = some l' →
      l'.Index ≤ l'.Len) ∧
    Lexer.backup ⟨[⟨ItemType.text, "a"⟩, ⟨ItemType.eof, ""⟩], 0⟩ =
      ⟨[⟨ItemType.text, "a"⟩, ⟨ItemType.eof, ""⟩], 0⟩ ∧
    Lexer.next ⟨[⟨ItemType.text, "a"⟩, ⟨ItemType.eol, "\n"⟩], 1⟩ =
      some (⟨ItemType.eol, "\n"⟩, ⟨[⟨ItemType.text, "a"⟩, ⟨ItemType.eol, "\n"⟩], 1⟩) := by
  refine ⟨fun l' hnew hrun => ?_, ?_, ?_⟩
  · exact Lexer_cursor_invariant.1 "a b" _ _ l' hnew hrun
  · exact Lexer_cursor_invariant.2.1 _ rfl
  · exact Lexer_cursor_invariant.2.2
      ⟨[⟨ItemType.text, "a"⟩, ⟨ItemType.eol, "\n"⟩], 1⟩ (by decide) (by decide)

end LinePkg

namespace LinePkg

/-- Claim C9 (corrected), counterexample: decoding the list ["a\"b"] (with
escape character backslash) succeeds, but the decoded entry still contains
the backslash: the escape is retained, not resolved away. -/
theorem Decode_escape_retained_cex :
    ((New "[\"a\\\"b\"]").bind (fun l =>
        (DecodeList.Decode ⟨"[", "]", ",", "\"", "\\"⟩ l).toOption)).map
        Prod.fst = some ["a\\\"b"] ∧ "a\\\"b" ≠ "a\"b" := by
  decide

/-- Claim C9 (amended): inside a quoted entry, a quote character immediately
preceded by the configured escape character is written to the entry as a
literal character and the quote state is not toggled (and the results list
is untouched); the escape character itself was already written to the entry
by the preceding default-case step, so escapes are retained in the decoded
entries rather than resolved. -/
theorem procChar_escaped_quote (lc rc sep q esc : Char) (st : DecState)
    (rest : List Char) (hlc : q ≠ lc) (hqs : Halfpike.isSpaceRune q = false)
    (hesc : esc ≠ Char.ofNat 0) (hlast : st.last = esc)
    (hquote : st.inQuote = true) (hfl : st.foundLeft = true) :
    procChar lc rc sep q esc st q rest =
      .ok ⟨st.foundLeft, st.foundRight, true, st.read + 1, q, q,
           st.entry ++ [q], st.results⟩ := by
  rw [procChar]
  simp only [hfl, Bool.not_true, Bool.and_false, Bool.false_eq_true, if_false,
    hlc, if_neg hlc, hqs, hesc, hlast, hquote]
  simp [hquote, hesc, hlast, hqs, hlc]

/-- Witness for C9: the escaped-quote step at the concrete point inside
decoding the list of the counterexample: the state just before the inner
quote, whose last read rune is the backslash. -/
theorem procChar_escaped_quote_witness :
    procChar '[' ']' ',' '"' '\\'
        ⟨true, false, true, 3, '\\', '\\', ['a', '\\'], []⟩ '"' ['b'] =
      .ok ⟨true, false, true, 4, '"', '"', ['a', '\\', '"'], []⟩ :=
  procChar_escaped_quote '[' ']' ',' '"' '\\'
    ⟨true, false, true, 3, '\\', '\\', ['a', '\\'], []⟩ ['b']
    (by decide) (by decide) (by decide) rfl rfl rfl

end LinePkg

namespace LinePkg

theorem flushItem_type_ne (b : List Char) (n f : Bool) :
    (flushItem b n f).type ≠ ItemType.eof ∧ (flushItem b n f).type ≠ ItemType.eol := by
  rw [flushItem]
  split
  · exact ⟨fun hh => ItemType.noConfusion hh, fun hh => ItemType.noConfusion hh⟩
  · split
    · exact ⟨fun hh => ItemType.noConfusion hh, fun hh => ItemType.noConfusion hh⟩
    · exact ⟨fun hh => ItemType.noConfusion hh, fun hh => ItemType.noConfusion hh⟩

theorem newStep_items (st : NewState) (r : Char) :
    ∀ it ∈ (newStep st r).items, it ∈ st.items ∨ it.type ≠ ItemType.eof := by
  intro it hit
  rw [newStep] at hit
  split at hit
  · split at hit <;> split at hit <;>
      simp only [List.mem_append, List.mem_singleton] at hit
    · rcases hit with hit | hit
      · exact .inl hit
      · exact .inr (hit ▸ fun hh => ItemType.noConfusion hh)
    · rcases hit with hit | hit
      · exact .inl hit
      · exact .inr (hit ▸ fun hh => ItemType.noConfusion hh)
    · rcases hit with (hit | hit) | hit
      · exact .inl hit
      · exact .inr (hit ▸ (flushItem_type_ne st.buff st.isNumber st.isFloat).1)
      · exact .inr (hit ▸ fun hh => ItemType.noConfusion hh)
    · rcases hit with (hit | hit) | hit
      · exact .inl hit
      · exact .inr (hit ▸ (flushItem_type_ne st.buff st.isNumber st.isFloat).1)
      · exact .inr (hit ▸ fun hh => ItemType.noConfusion hh)
  · split at hit
    · exact .inl hit
    · split at hit
      · exact .inl hit
      · exact .inl hit

theorem foldl_items_eof_free (cs : List Char) :
    ∀ st, (∀ it ∈ st.items, it.type ≠ ItemType.eof) →
      ∀ it ∈ (List.foldl newStep st cs).items, it.type ≠ ItemType.eof := by
  induction cs with
  | nil => intro st h; simpa using h
  | cons c cs ih =>
    intro st h
    rw [List.foldl_cons]
    apply ih
    intro it hit
    rcases newStep_items st c it hit with hmem | hne
    · exact h it hmem
    · exact hne

theorem newStep_space (st : NewState) (r : Char)
    (hsp : Halfpike.isSpaceRune r = true) :
    (newStep st r).buff = [] ∧
    ∃ pre, (newStep st r).items =
        pre ++ [if r = '\n' then Item.mk ItemType.eol "\n"
                else Item.mk ItemType.space (String.mk [r])] := by
  rw [newStep, if_pos hsp]
  split
  · rename_i hbe
    have hb : st.buff = [] := List.isEmpty_iff.mp hbe
    split
    · exact ⟨hb, st.items, rfl⟩
    · exact ⟨hb, st.items, rfl⟩
  · split
    · exact ⟨rfl, st.items ++ [flushItem st.buff st.isNumber st.isFloat], rfl⟩
    · exact ⟨rfl, st.items ++ [flushItem st.buff st.isNumber st.isFloat], rfl⟩

theorem newStep_nonspace (st : NewState) (r : Char)
    (hsp : Halfpike.isSpaceRune r = false) :
    (newStep st r).items = st.items ∧ (newStep st r).buff = st.buff ++ [r] := by
  rw [newStep, if_neg (by rw [hsp]; exact Bool.false_ne_true)]
  split
  · exact ⟨rfl, rfl⟩
  · split
    · exact ⟨rfl, rfl⟩
    · exact ⟨rfl, rfl⟩

theorem NewItems_fixup (cs : List Char) (its : List Item) (last : Item)
    (hfin : finishItems (cs.foldl newStep ⟨[], [], false, false⟩) = its)
    (hgl : its.getLast? = some last) :
    NewItems cs =
      if last.type ≠ ItemType.eol then some (its ++ [⟨ItemType.eof, ""⟩])
      else some its := by
  rw [NewItems, hfin, hgl]

/-- Claim C8 (amended): for every nonempty input, New returns normally with
a nonempty item sequence whose last item is ItemEOL when the input ends in
a newline and ItemEOF otherwise, and ItemEOF never occurs before the last
position (the terminal is appended only when the sequence does not already
end in ItemEOL). -/
theorem NewItems_terminal (cs : List Char) (h : cs ≠ []) :
    ∃ items last, NewItems cs = some items ∧ items.getLast? = some last ∧
      last.type = (if cs.getLast? = some '\n' then ItemType.eol else ItemType.eof) ∧
      ∀ it ∈ items.dropLast, it.type ≠ ItemType.eof := by
  obtain ⟨cs', c, hcs⟩ : ∃ cs' c, cs = cs' ++ [c] := by
    refine ⟨cs.dropLast, cs.getLast h, ?_⟩
    rw [List.dropLast_append_getLast h]
  subst hcs
  have hlast : (cs' ++ [c]).getLast? = some c := List.getLast?_concat _
  rw [hlast]
  set st0 := List.foldl newStep ⟨[], [], false, false⟩ cs' with hst0
  have hfold : List.foldl newStep ⟨[], [], false, false⟩ (cs' ++ [c]) =
      newStep st0 c := by
    rw [List.foldl_append, List.foldl_cons, List.foldl_nil]
  have heoffree : ∀ it ∈ st0.items, it.type ≠ ItemType.eof :=
    foldl_items_eof_free cs' ⟨[], [], false, false⟩ (by simp)
  have heoffree' : ∀ it ∈ (newStep st0 c).items, it.type ≠ ItemType.eof := by
    intro it hit
    rcases newStep_items st0 c it hit with hmem | hne
    · exact heoffree it hmem
    · exact hne
  by_cases hsp : Halfpike.isSpaceRune c = true
  · -- the final rune is a space: the step already appended the terminal
    -- space/EOL item and emptied the buffer, so the final flush is a no-op
    obtain ⟨hbuff, pre, hitems⟩ := newStep_space st0 c hsp
    have hfin : finishItems (newStep st0 c) = (newStep st0 c).items := by
      rw [finishItems, if_pos (by rw [hbuff]; rfl)]
    by_cases hnl : c = '\n'
    · subst hnl
      rw [if_pos rfl] at hitems
      refine ⟨(newStep st0 '\n').items, Item.mk ItemType.eol "\n", ?_, ?_, ?_, ?_⟩
      · rw [NewItems_fixup (cs' ++ ['\n']) _ (Item.mk ItemType.eol "\n")
          (by rw [hfold, hfin]) (by rw [hitems, List.getLast?_concat]),
          if_neg (fun hh => hh rfl)]
      · rw [hitems, List.getLast?_concat]
      · rw [if_pos rfl]
      · intro it hit
        exact heoffree' it (List.dropLast_sublist _ |>.mem hit)
    · rw [if_neg hnl] at hitems
      have hgl : (newStep st0 c).items.getLast? =
          some (Item.mk ItemType.space (String.mk [c])) := by
        rw [hitems, List.getLast?_concat]
      refine ⟨(newStep st0 c).items ++ [Item.mk ItemType.eof ""],
        Item.mk ItemType.eof "", ?_, List.getLast?_concat _, ?_, ?_⟩
      · rw [NewItems_fixup (cs' ++ [c]) _ _ (by rw [hfold, hfin]) hgl]
        simp
      · rw [if_neg (by simp [hnl])]
      · intro it hit
        rw [List.dropLast_concat] at hit
        exact heoffree' it hit
  · -- the final rune is not a space: the buffer is nonempty and the final
    -- flush emits a Float/Int/Text item, after which ItemEOF is appended
    have hsp' : Halfpike.isSpaceRune c = false := by
      cases hx : Halfpike.isSpaceRune c
      · rfl
      · exact absurd hx hsp
    have hnl : ¬ c = '\n' := by
      intro hh
      rw [hh] at hsp'
      exact absurd hsp' (by decide)
    obtain ⟨hitems, hbuff⟩ := newStep_nonspace st0 c hsp'
    have hfin : finishItems (newStep st0 c) = st0.items ++
        [flushItem (newStep st0 c).buff (newStep st0 c).isNumber
          (newStep st0 c).isFloat] := by
      rw [finishItems, if_neg (by rw [hbuff]; simp), hitems]
    refine ⟨finishItems (newStep st0 c) ++ [Item.mk ItemType.eof ""],
      Item.mk ItemType.eof "", ?_, List.getLast?_concat _, ?_, ?_⟩
    · rw [NewItems_fixup (cs' ++ [c]) _ _ (by rw [hfold])
          (by rw [hfin, List.getLast?_concat]),
        if_pos (flushItem_type_ne _ _ _).2]
    · rw [if_neg (by simp [hnl])]
    · intro it hit
      rw [List.dropLast_concat, hfin] at hit
      rcases List.mem_append.mp hit with hmem | hmem
      · exact heoffree it hmem
      · rw [List.mem_singleton.mp hmem]
        exact (flushItem_type_ne _ _ _).1

/-- Witness for C8: the theorem instantiated at the newline-terminated
input "a\n" whose nonemptiness hypothesis is discharged concretely. -/
theorem NewItems_terminal_witness :
    ∃ items last, NewItems "a\n".data = some items ∧
      items.getLast? = some last ∧
      last.type =
        (if "a\n".data.getLast? = some '\n' then ItemType.eol else ItemType.eof) ∧
      ∀ it ∈ items.dropLast, it.type ≠ ItemType.eof :=
  NewItems_terminal "a\n".data (by decide)

end LinePkg

namespace Halfpike

theorem wfStream_ne_nil {items : List Item} (h : wfStream items = true) :
    items ≠ [] := by
  intro hh
  rw [hh] at h
  exact absurd h (by decide)

theorem wfStream_cons {it : Item} {rest : List Item} (hne : it.type ≠ ItemType.eof)
    (h : wfStream rest = true) : wfStream (it :: rest) = true := by
  cases rest with
  | nil => exact absurd rfl (wfStream_ne_nil h)
  | cons b bs =>
    rw [wfStream]
    simp only [Bool.and_eq_true, Bool.not_eq_true', beq_eq_false_iff_ne, ne_eq]
    exact ⟨hne, h⟩

theorem wfStream_append {pre rest : List Item}
    (hpre : ∀ it ∈ pre, it.type ≠ ItemType.eof) (h : wfStream rest = true) :
    wfStream (pre ++ rest) = true := by
  induction pre with
  | nil => simpa using h
  | cons a pre ih =>
    rw [List.cons_append]
    exact wfStream_cons (hpre a (by simp))
      (ih (fun it hit => hpre it (by simp [hit])))

theorem classifyAtEOL_eof_free (pending : List Char) (last : ItemType) :
    ∀ it ∈ classifyAtEOL pending last, it.type ≠ ItemType.eof := by
  intro it hit
  rw [classifyAtEOL] at hit
  split at hit
  · rw [List.mem_singleton.mp hit]
    exact fun hh => ItemType.noConfusion hh
  · split at hit
    · rw [List.mem_singleton.mp hit]
      exact fun hh => ItemType.noConfusion hh
    · split at hit
      · simp at hit
      · rw [List.mem_singleton.mp hit]
        exact fun hh => ItemType.noConfusion hh

theorem classifyAtSpace_eof (pending : List Char) :
    (classifyAtSpace pending).type ≠ ItemType.eof := by
  rw [classifyAtSpace]
  split
  · exact fun hh => ItemType.noConfusion hh
  · split
    · exact fun hh => ItemType.noConfusion hh
    · exact fun hh => ItemType.noConfusion hh

theorem untilSpace_wf (cs : List Char) :
    ∀ (lineNum : Nat) (raw pending : List Char) (last : ItemType),
      wfStream (untilSpace lineNum raw pending last cs) = true := by
  induction cs with
  | nil =>
    intro lineNum raw pending last
    rw [untilSpace, wfStream]
    rfl
  | cons r rest ih =>
    intro lineNum raw pending last
    rw [untilSpace]
    by_cases hnl : r = '\n'
    · rw [if_pos hnl]
      by_cases hl : last = .unknown ∨ last = .eol
      · rw [if_pos hl]
        exact ih _ _ _ _
      · rw [if_neg hl]
        exact wfStream_append (classifyAtEOL_eof_free pending last)
          (wfStream_cons (fun hh => ItemType.noConfusion hh) (ih _ _ _ _))
    · rw [if_neg hnl]
      by_cases hsp : isSpaceRune r = true
      · rw [if_pos hsp]
        by_cases hl : last = .unknown ∨ last = .eol ∨ last = .space
        · rw [if_pos hl]
          exact ih _ _ _ _
        · rw [if_neg hl]
          exact wfStream_cons (classifyAtSpace_eof pending) (ih _ _ _ _)
      · rw [if_neg hsp]
        exact ih _ _ _ _

theorem lexInput_wf (s : String) : wfStream (lexInput s) = true :=
  untilSpace_wf s.data 0 [] [] .unknown

end Halfpike

namespace Halfpike

theorem pullAux_wf (items : List Item) :
    ∀ acc, wfStream items = true →
      ∃ t : Item, (pullAux acc items).1.Items.getLast? = some t ∧
        ((t.type = ItemType.eof ∧ (pullAux acc items).2 = []) ∨
         (t.type = ItemType.eol ∧ wfStream (pullAux acc items).2 = true)) := by
  induction items with
  | nil => intro acc h; exact absurd h (by decide)
  | cons it rest ih =>
    intro acc h
    cases rest with
    | nil =>
      have heof : it.type = ItemType.eof := by
        rw [wfStream] at h
        simpa using h
      rw [pullAux, heof]
      exact ⟨⟨ItemType.eof, it.val, 0, ""⟩, by simp, .inl ⟨rfl, rfl⟩⟩
    | cons b bs =>
      have hh : it.type ≠ ItemType.eof ∧ wfStream (b :: bs) = true := by
        rw [wfStream] at h
        simpa using h
      rw [pullAux]
      cases hty : it.type with
      | eof => exact absurd hty hh.1
      | eol =>
        exact ⟨⟨ItemType.eol, it.val, 0, ""⟩, by simp, .inr ⟨rfl, hh.2⟩⟩
      | unknown => exact ih _ hh.2
      | text => exact ih _ hh.2
      | int => exact ih _ hh.2
      | float => exact ih _ hh.2
      | space => exact ih _ hh.2

theorem pull_wf (items : List Item) (h : wfStream items = true) :
    ∃ t : Item, (pull items).1.Items.getLast? = some t ∧
      ((t.type = ItemType.eof ∧ (pull items).2 = []) ∨
       (t.type = ItemType.eol ∧ wfStream (pull items).2 = true)) :=
  pullAux_wf items [] h

theorem linesOf_nonfinal_aux (n : Nat) :
    ∀ items : List Item, items.length = n → wfStream items = true →
      ∀ i l, i + 1 < (linesOf items).length → (linesOf items)[i]? = some l →
        EOFline l = some false := by
  induction n using Nat.strong_induction_on with
  | _ n ih =>
    intro items hlen hwf i l hi1 hl
    rw [linesOf_cons items (wfStream_ne_nil hwf)] at hi1 hl
    obtain ⟨t, hgl, hcase⟩ := pull_wf items hwf
    cases i with
    | zero =>
      rcases hcase with ⟨hty, hrest⟩ | ⟨hty, hrest⟩
      · -- terminal pull: but then there is exactly one line, contradiction
        rw [hrest] at hi1
        simp [linesOf, linesOfAux] at hi1
      · simp only [List.getElem?_cons_zero, Option.some.injEq] at hl
        rw [← hl, EOFline, hgl]
        simp [hty]
    | succ j =>
      rcases hcase with ⟨hty, hrest⟩ | ⟨hty, hrest⟩
      · rw [hrest] at hi1
        simp [linesOf, linesOfAux] at hi1
      · have hlt : (pull items).2.length < n := by
          rw [← hlen]
          exact pull_rest_length_lt items (wfStream_ne_nil hwf)
        simp only [List.length_cons, Nat.add_lt_add_iff_right] at hi1
        simp only [List.getElem?_cons_succ] at hl
        exact ih _ hlt (pull items).2 rfl hrest j l hi1 hl

theorem linesOf_nonfinal (items : List Item) (hwf : wfStream items = true)
    (i : Nat) (l : Line) (hi1 : i + 1 < (linesOf items).length)
    (hl : (linesOf items)[i]? = some l) : EOFline l = some false :=
  linesOf_nonfinal_aux items.length items rfl hwf i l hi1 hl

theorem pullK_spec (S : List Item) (hwf : wfStream S = true) :
    ∀ n, n < (linesOf S).length →
      wfStream (pullK n S) = true ∧ linesOf (pullK n S) = (linesOf S).drop n := by
  intro n
  induction n with
  | zero => intro _; exact ⟨hwf, by simp [pullK]⟩
  | succ k ihk =>
    intro hk1
    have hk : k < (linesOf S).length := Nat.lt_of_succ_lt hk1
    obtain ⟨hwfk, hdk⟩ := ihk hk
    obtain ⟨t, hgl, hcase⟩ := pull_wf (pullK k S) hwfk
    have hcons := linesOf_cons (pullK k S) (wfStream_ne_nil hwfk)
    rcases hcase with ⟨hty, hrest⟩ | ⟨hty, hrest⟩
    · -- the k-th pull already hit EOF: then drop k has exactly one line,
      -- contradicting k + 1 < length
      rw [hrest] at hcons
      rw [hcons] at hdk
      have : (linesOf S).length - k = 1 := by
        rw [← List.length_drop, ← hdk]
        simp [linesOf, linesOfAux]
      omega
    · refine ⟨hrest, ?_⟩
      show linesOf (pull (pullK k S)).2 = _
      have h1 : linesOf (pull (pullK k S)).2 = ((linesOf S).drop k).tail := by
        rw [← hdk, hcons]
        rfl
      rw [h1, List.tail_drop]

end Halfpike

namespace Halfpike

theorem next_step (S : List Item) (e : Option String) (n : Nat) (l : Line)
    (hwf : wfStream S = true) (hl : (linesOf S)[n]? = some l) :
    Parser.next ⟨(linesOf S).take n, n, pullK n S, e⟩ =
      some (l, ⟨(linesOf S).take (n + 1), n + 1, pullK (n + 1) S, e⟩) := by
  have h : n < (linesOf S).length := by
    by_contra hc
    push_neg at hc
    rw [List.getElem?_eq_none hc] at hl
    exact Option.noConfusion hl
  have htake : (linesOf S).take (n + 1) = (linesOf S).take n ++ [l] := by
    rw [List.take_succ, hl]
    rfl
  by_cases hn0 : n = 0
  · subst hn0
    have hcons := linesOf_cons S (wfStream_ne_nil hwf)
    rw [hcons] at hl
    simp only [List.getElem?_cons_zero, Option.some.injEq] at hl
    rw [Parser.next]
    simp [pullK, htake, hl]
  · have hlen : ((linesOf S).take n).length = n := by
      rw [List.length_take]
      omega
    rw [Parser.next]
    rw [if_neg (by rw [hlen]; omega), if_pos (by rw [hlen])]
    obtain ⟨lprev, hlprev⟩ : ∃ lp, (linesOf S)[n - 1]? = some lp :=
      ⟨_, List.getElem?_eq_getElem (by omega)⟩
    have hdecomp : (linesOf S).take n = (linesOf S).take (n - 1) ++ [lprev] := by
      conv_lhs => rw [show n = (n - 1) + 1 by omega]
      rw [List.take_succ, hlprev]
      rfl
    have hgl : ((linesOf S).take n).getLast? = some lprev := by
      rw [hdecomp]
      exact List.getLast?_concat _
    rw [hgl]
    have hEOF : EOFline lprev = some false :=
      linesOf_nonfinal S hwf (n - 1) lprev (by omega) hlprev
    obtain ⟨hwfn, hdn⟩ := pullK_spec S hwf n h
    have hcons2 := linesOf_cons (pullK n S) (wfStream_ne_nil hwfn)
    rw [hdn, List.drop_eq_getElem_cons h] at hcons2
    have hxl : (pull (pullK n S)).1 = l := by
      have h1 := (List.cons.injEq _ _ _ _).mp hcons2
      have h2 : (linesOf S)[n] = l := by
        have h3 := List.getElem?_eq_getElem h
        rw [h3] at hl
        exact Option.some_injective _ hl
      rw [← h1.1, h2]
    have hidx : ((linesOf S).take n ++ [(pull (pullK n S)).1])[n]? =
        some (pull (pullK n S)).1 := by
      have hcl := List.getElem?_concat_length ((linesOf S).take n)
        ((pull (pullK n S)).1)
      rw [hlen] at hcl
      exact hcl
    rw [hxl] at hidx
    simp only [hEOF, hxl, hidx, htake]
    rfl

theorem nextN_succ (n : Nat) :
    ∀ p : Parser, nextN (n + 1) p =
      (nextN n p).bind (fun r => (r.2.next).map (fun x => (r.1 ++ [x.1], x.2))) := by
  induction n with
  | zero =>
    intro p
    cases hp : p.next with
    | none => simp [nextN, hp]
    | some r => simp [nextN, hp]
  | succ m ih =>
    intro p
    cases hp : p.next with
    | none =>
      have h1 : nextN (m + 1 + 1) p = none := by
        rw [nextN]
        simp [hp]
      have h2 : nextN (m + 1) p = none := by
        rw [nextN]
        simp [hp]
      rw [h1, h2]
      rfl
    | some r =>
      have hy : nextN (m + 1) p =
          (nextN m r.2).bind (fun rs => some (r.1 :: rs.1, rs.2)) := by
        rw [nextN]
        simp only [hp, Option.bind_eq_bind, Option.some_bind, Option.pure_def]
      have hz : nextN (m + 1 + 1) p =
          (nextN (m + 1) r.2).bind (fun rs => some (r.1 :: rs.1, rs.2)) := by
        rw [nextN]
        simp only [hp, Option.bind_eq_bind, Option.some_bind, Option.pure_def]
      rw [hz, ih r.2, hy]
      cases hrs : nextN m r.2 with
      | none => rfl
      | some rs =>
        simp only [Option.bind_eq_bind, Option.some_bind]
        cases hx2 : rs.2.next with
        | none => rfl
        | some x => simp

theorem nextN_run (S : List Item) (e : Option String) :
    ∀ n, wfStream S = true → n ≤ (linesOf S).length →
      nextN n ⟨[], 0, S, e⟩ =
        some ((linesOf S).take n, ⟨(linesOf S).take n, n, pullK n S, e⟩) := by
  intro n hwf
  induction n with
  | zero =>
    intro _
    rw [nextN]
    simp [pullK]
  | succ k ih =>
    intro hk1
    have hk : k ≤ (linesOf S).length := Nat.le_of_succ_le hk1
    have hkl : k < (linesOf S).length := Nat.lt_of_succ_le hk1
    obtain ⟨l, hl⟩ : ∃ l, (linesOf S)[k]? = some l :=
      ⟨_, List.getElem?_eq_getElem hkl⟩
    rw [nextN_succ, ih hk]
    simp only [Option.bind_eq_bind, Option.some_bind]
    rw [next_step S e k l hwf hl]
    simp only [Option.map_some']
    have htake : (linesOf S).take (k + 1) = (linesOf S).take k ++ [l] := by
      rw [List.take_succ, hl]
      rfl
    rw [htake]

theorem backupN_run : ∀ (j : Nat) (p : Parser), j ≤ p.pos →
    p.pos ≤ p.lines.length →
    backupN j p = some (((p.lines.drop (p.pos - j)).take j).reverse,
      ⟨p.lines, p.pos - j, p.recv, p.err⟩) := by
  intro j
  induction j with
  | zero =>
    intro p _ _
    rw [backupN]
    simp
  | succ i ih =>
    intro p hj hp
    have hpos : ¬ p.pos = 0 := by omega
    have hlt : p.pos - 1 < p.lines.length := by omega
    have hidx : p.lines[p.pos - 1]? =
        some (p.lines.get ⟨p.pos - 1, hlt⟩) :=
      List.getElem?_eq_getElem hlt
    rw [backupN, Parser.backup, if_neg hpos, hidx]
    simp only [Option.bind_eq_bind, Option.some_bind]
    rw [ih ⟨p.lines, p.pos - 1, p.recv, p.err⟩ (by simp; omega) (by simp; omega)]
    simp only [Option.bind_eq_bind, Option.some_bind, Option.pure_def,
      Option.some.injEq, Prod.mk.injEq]
    have hd : p.pos - 1 - i = p.pos - (i + 1) := by omega
    constructor
    · have htk : (p.lines.drop (p.pos - (i + 1))).take (i + 1) =
          (p.lines.drop (p.pos - (i + 1))).take i ++
            [p.lines.get ⟨p.pos - 1, hlt⟩] := by
        rw [List.take_succ]
        have hgd : (p.lines.drop (p.pos - (i + 1)))[i]? = p.lines[p.pos - 1]? := by
          rw [List.getElem?_drop]
          congr 1
          omega
        rw [hgd, hidx]
        rfl
      rw [htk]
      simp [hd]
    · rw [hd]

/-- Claim C5 (amended): for every input and every n between 1 and the
number of lines the tokenizer produces, n Next calls followed by n Backup
calls all succeed and the Backup-returned lines, reversed, equal the
Next-returned lines.  (For larger n the Next calls still succeed by
repeating the terminal line without advancing, but the Backups then
underflow the cursor and panic, as the counterexample shows.) -/
theorem nextN_backupN_roundtrip (input : String) (n : Nat) (h1 : 1 ≤ n)
    (h2 : n ≤ (linesOf (lexInput input)).length) :
    ∃ fwd p bwd p', nextN n (newParser input) = some (fwd, p) ∧
      backupN n p = some (bwd, p') ∧ bwd.reverse = fwd := by
  have hn0 : 0 < n := h1
  have hwf := lexInput_wf input
  have hrun := nextN_run (lexInput input) none n hwf h2
  have hlen : ((linesOf (lexInput input)).take n).length = n := by
    rw [List.length_take]
    omega
  have hback := backupN_run n
    ⟨(linesOf (lexInput input)).take n, n, pullK n (lexInput input), none⟩
    le_rfl (le_of_eq hlen.symm)
  refine ⟨(linesOf (lexInput input)).take n, _, _, _, hrun, hback, ?_⟩
  simp only [Nat.sub_self, List.drop_zero, List.take_take, Nat.min_self,
    List.reverse_reverse]

/-- Witness for C5: the three-line input "a\nb\n" with n = 2. -/
theorem nextN_backupN_roundtrip_witness :
    ∃ fwd p bwd p', nextN 2 (newParser "a\nb\n") = some (fwd, p) ∧
      backupN 2 p = some (bwd, p') ∧ bwd.reverse = fwd :=
  nextN_backupN_roundtrip "a\nb\n" 2 (by decide) (by decide)

end Halfpike

namespace Halfpike

/-- Witness for C4: the terminal state after one Next on the input "a",
where Peek returns the terminal line and moves the cursor from 1 to 0. -/
theorem Peek_contract_witness :
    (∃ q, Parser.next ⟨[⟨[⟨ItemType.eof, "a", 0, ""⟩], 0, "a\x01"⟩], 1, [], none⟩ =
        some (⟨[⟨ItemType.eof, "a", 0, ""⟩], 0, "a\x01"⟩, q)) ∧
      Parser.pos ⟨[⟨[⟨ItemType.eof, "a", 0, ""⟩], 0, "a\x01"⟩], 0, [], none⟩ =
        (if Parser.atTerminal ⟨[⟨[⟨ItemType.eof, "a", 0, ""⟩], 0, "a\x01"⟩], 1, [], none⟩
         then 1 - 1 else 1) :=
  Peek_contract ⟨[⟨[⟨ItemType.eof, "a", 0, ""⟩], 0, "a\x01"⟩], 1, [], none⟩
    (by decide) (by decide) ⟨[⟨ItemType.eof, "a", 0, ""⟩], 0, "a\x01"⟩
    ⟨[⟨[⟨ItemType.eof, "a", 0, ""⟩], 0, "a\x01"⟩], 0, [], none⟩ (by decide)

end Halfpike

namespace LinePkg

theorem newStep_nonspace_full (st : NewState) (r : Char)
    (hsp : Halfpike.isSpaceRune r = false) :
    newStep st r = ⟨st.items, st.buff ++ [r],
      (runFlagsStep st.items.isEmpty (lastIsSpace st.items) st.buff.isEmpty
        (st.isNumber, st.isFloat) r).1,
      (runFlagsStep st.items.isEmpty (lastIsSpace st.items) st.buff.isEmpty
        (st.isNumber, st.isFloat) r).2⟩ := by
  rw [newStep, if_neg (by rw [hsp]; exact Bool.false_ne_true), runFlagsStep]
  by_cases hd : isNumberRune r = true
  · rw [if_pos hd, if_pos hd]
  · rw [if_neg hd, if_neg hd]
    by_cases hdot : r = '.'
    · rw [if_pos hdot, if_pos hdot]
    · rw [if_neg hdot, if_neg hdot]

theorem foldl_run (run : List Char) :
    ∀ st : NewState, (∀ c ∈ run, Halfpike.isSpaceRune c = false) →
      List.foldl newStep st run = ⟨st.items, st.buff ++ run,
        (runFlags st.items.isEmpty (lastIsSpace st.items) st.buff.isEmpty
          (st.isNumber, st.isFloat) run).1,
        (runFlags st.items.isEmpty (lastIsSpace st.items) st.buff.isEmpty
          (st.isNumber, st.isFloat) run).2⟩ := by
  induction run with
  | nil =>
    intro st _
    rw [List.foldl_nil, runFlags]
    cases st
    simp
  | cons r rest ih =>
    intro st hns
    rw [List.foldl_cons, newStep_nonspace_full st r (hns r (by simp))]
    rw [ih _ (fun c hc => hns c (by simp [hc]))]
    have hne : (st.buff ++ [r]).isEmpty = false := by cases st.buff <;> rfl
    rw [runFlags]
    simp [hne]

theorem lastNonNumericIdx_snoc_numeric (xs : List Char) (x : Char)
    (hx : (isNumberRune x || x = '.') = true) :
    lastNonNumericIdx (xs ++ [x]) = lastNonNumericIdx xs := by
  induction xs with
  | nil =>
    rw [List.nil_append, lastNonNumericIdx, lastNonNumericIdx]
    simp [hx]
    rfl
  | cons c xs ih =>
    rw [List.cons_append, lastNonNumericIdx, ih]
    rfl

theorem lastNonNumericIdx_snoc_other (xs : List Char) (x : Char)
    (hx : (isNumberRune x || x = '.') = false) :
    lastNonNumericIdx (xs ++ [x]) = some xs.length := by
  induction xs with
  | nil =>
    rw [List.nil_append, lastNonNumericIdx, lastNonNumericIdx]
    simp [hx]
  | cons c xs ih =>
    rw [List.cons_append, lastNonNumericIdx, ih]
    rfl

theorem lastNonNumericIdx_lt (xs : List Char) :
    ∀ j, lastNonNumericIdx xs = some j → j < xs.length := by
  induction xs with
  | nil => intro j h; exact absurd h (by rw [lastNonNumericIdx]; simp)
  | cons c xs ih =>
    intro j h
    rw [lastNonNumericIdx] at h
    cases hx : lastNonNumericIdx xs with
    | some i =>
      rw [hx] at h
      simp only [Option.some.injEq] at h
      have := ih i hx
      simp only [List.length_cons]
      omega
    | none =>
      rw [hx] at h
      simp only [List.length_cons]
      by_cases hc : (!(isNumberRune c || c = '.')) = true
      · simp [hc] at h
        omega
      · simp [hc] at h

theorem runFlags_append (first afterSpace : Bool) :
    ∀ (xs ys : List Char) (isFirst : Bool) (nf : Bool × Bool),
      runFlags first afterSpace isFirst nf (xs ++ ys) =
        runFlags first afterSpace (isFirst && xs.isEmpty)
          (runFlags first afterSpace isFirst nf xs) ys := by
  intro xs
  induction xs with
  | nil =>
    intro ys isFirst nf
    rw [List.nil_append, runFlags]
    simp
  | cons x xs ih =>
    intro ys isFirst nf
    rw [List.cons_append, runFlags, runFlags, ih]
    simp

end LinePkg

namespace LinePkg

theorem getD_concat (xs : List Char) (x : Char) (d : Char) :
    (xs ++ [x]).getD xs.length d = x := by
  induction xs with
  | nil => rfl
  | cons c xs ih => rw [List.cons_append, List.length_cons, List.getD_cons_succ, ih]

theorem length_beq_isEmpty (xs : List Char) : (xs.length == 0) = xs.isEmpty := by
  cases xs <;> rfl

theorem closedFlags_snoc (first afterSpace : Bool) (xs : List Char) (x : Char) :
    closedFlags first afterSpace (xs ++ [x]) =
      runFlagsStep first afterSpace xs.isEmpty (closedFlags first afterSpace xs) x := by
  rw [runFlagsStep]
  by_cases hx : isNumberRune x = true
  · rw [if_pos hx]
    have hne : x ≠ '.' := by
      intro h; rw [h] at hx; exact absurd hx (by decide)
    have hnum : (isNumberRune x || x = '.') = true := by simp [hx]
    cases hj : lastNonNumericIdx xs with
    | some j =>
      have hjlt := lastNonNumericIdx_lt xs j hj
      have hxe : xs.isEmpty = false := by
        cases xs with
        | nil => rw [lastNonNumericIdx] at hj; exact Option.noConfusion hj
        | cons a l => rfl
      rw [if_neg (by rw [hxe]; exact Bool.false_ne_true), Prod.mk.eta]
      simp only [closedFlags, lastNonNumericIdx_snoc_numeric xs x hnum, hj]
      rw [List.getD_append _ _ _ _ hjlt,
        List.drop_append_of_le_length (Nat.succ_le_of_lt hjlt), List.any_append,
        show ([x].any fun c => c = '.') = false from by simp [hne], Bool.or_false]
    | none =>
      cases xs with
      | nil =>
        simp [closedFlags, lastNonNumericIdx, hx]
      | cons c rest =>
        have hj2 : lastNonNumericIdx ((c :: rest) ++ [x]) = none := by
          rw [lastNonNumericIdx_snoc_numeric _ _ hnum, hj]
        rw [List.cons_append] at hj2
        simp only [closedFlags, List.cons_append, hj2, hj]
        by_cases hc : isNumberRune c = true
        · simp [hc, List.any_append, hne]
        · simp [hc]
  · rw [if_neg hx]
    by_cases hdot : x = '.'
    · rw [if_pos hdot]
      have hnum : (isNumberRune x || x = '.') = true := by simp [hdot]
      cases hj : lastNonNumericIdx xs with
      | some j =>
        have hjlt := lastNonNumericIdx_lt xs j hj
        simp only [closedFlags, lastNonNumericIdx_snoc_numeric xs x hnum, hj]
        rw [List.getD_append _ _ _ _ hjlt,
          List.drop_append_of_le_length (Nat.succ_le_of_lt hjlt), List.any_append,
          show ([x].any fun c => c = '.') = true from by simp [hdot], Bool.or_true]
        cases hB : (xs.getD j ' ' = '-' && (first || (afterSpace && j == 0))) with
        | true => simp [hB]
        | false => simp [hB]
      | none =>
        cases xs with
        | nil =>
          subst hdot
          rfl
        | cons c rest =>
          have hj2 : lastNonNumericIdx ((c :: rest) ++ [x]) = none := by
            rw [lastNonNumericIdx_snoc_numeric _ _ hnum, hj]
          rw [List.cons_append] at hj2
          simp only [closedFlags, List.cons_append, hj2, hj]
          by_cases hc : isNumberRune c = true
          · simp [hc, List.any_append, hdot]
          · simp [hc]
    · have hx' : isNumberRune x = false := by
        cases h : isNumberRune x
        · rfl
        · exact absurd h hx
      rw [if_neg hdot]
      have hnum : (isNumberRune x || x = '.') = false := by simp [hx', hdot]
      simp only [closedFlags, lastNonNumericIdx_snoc_other xs x hnum]
      rw [getD_concat, length_beq_isEmpty,
        show xs.length + 1 = (xs ++ [x]).length from by simp,
        List.drop_length, List.any_nil]
      cases hm : decide (x = '-') with
      | false => simp [hm]
      | true =>
        cases hb : (first || (afterSpace && xs.isEmpty)) with
        | true => simp [hm, hb]
        | false => simp [hm, hb]

end LinePkg

namespace LinePkg

theorem runFlags_closed (first afterSpace : Bool) (run : List Char) :
    runFlags first afterSpace true (false, false) run =
      closedFlags first afterSpace run := by
  induction run using List.reverseRecOn with
  | nil => rfl
  | append_singleton xs x ih =>
    rw [runFlags_append, ih, closedFlags_snoc]
    cases hxe : xs.isEmpty with
    | true => rfl
    | false => rfl

theorem classifyRun_eq (first afterSpace : Bool) (run : List Char) :
    classifyRun first afterSpace run =
      (if (closedFlags first afterSpace run).1 && (closedFlags first afterSpace run).2
        then ItemType.float
       else if (closedFlags first afterSpace run).1 then ItemType.int
       else ItemType.text) := by
  cases hj : lastNonNumericIdx run with
  | some j =>
    simp only [classifyRun, closedFlags, hj]
    by_cases hc : (run.getD j ' ' = '-' && (first || (afterSpace && j == 0))) = true
    · rw [if_pos hc, if_pos hc]
      cases hd : ((run.drop (j + 1)).any fun c => c = '.') with
      | true => simp [hd]
      | false => simp [hd]
    · rw [if_neg hc, if_neg hc]
      rfl
  | none =>
    cases run with
    | nil => rfl
    | cons c rest =>
      simp only [classifyRun, closedFlags, hj]
      by_cases hc : isNumberRune c = true
      · by_cases hd : (rest.any fun c => c = '.') = true
        · simp [hc, hd]
        · simp [hc, hd]
      · simp [hc]

theorem flushItem_classify (first afterSpace : Bool) (run : List Char) :
    flushItem run (runFlags first afterSpace true (false, false) run).1
        (runFlags first afterSpace true (false, false) run).2 =
      ⟨classifyRun first afterSpace run, String.mk run⟩ := by
  rw [runFlags_closed, classifyRun_eq, flushItem]
  by_cases h1 : ((closedFlags first afterSpace run).1 &&
      (closedFlags first afterSpace run).2) = true
  · rw [if_pos h1, if_pos h1]
  · rw [if_neg h1, if_neg h1]
    by_cases h2 : (closedFlags first afterSpace run).1 = true
    · rw [if_pos h2, if_pos h2]
    · rw [if_neg h2, if_neg h2]

end LinePkg

namespace LinePkg

theorem refLexGo_space (first afterSpace : Bool) (c : Char) (cs' : List Char)
    (hsp : Halfpike.isSpaceRune c = true) :
    refLexGo first afterSpace (c :: cs') =
      (if c = '\n' then Item.mk .eol "\n" else Item.mk .space (String.mk [c])) ::
        refLexGo false (c != '\n') cs' := by
  simp only [refLexGo]
  rw [if_pos hsp]

theorem refLexGo_run (first afterSpace : Bool) (c : Char) (cs' : List Char)
    (hsp : Halfpike.isSpaceRune c = false) :
    refLexGo first afterSpace (c :: cs') =
      Item.mk (classifyRun first afterSpace
          (c :: cs'.takeWhile (fun x => !Halfpike.isSpaceRune x)))
        (String.mk (c :: cs'.takeWhile (fun x => !Halfpike.isSpaceRune x))) ::
        refLexGo false false (cs'.dropWhile (fun x => !Halfpike.isSpaceRune x)) := by
  simp only [refLexGo]
  rw [if_neg (by rw [hsp]; exact Bool.false_ne_true)]

theorem newStep_space_empty (st : NewState) (c : Char)
    (hsp : Halfpike.isSpaceRune c = true) (hb : st.buff = []) :
    newStep st c = { st with items := st.items ++
      [if c = '\n' then Item.mk .eol "\n" else Item.mk .space (String.mk [c])] } := by
  rw [newStep, if_pos hsp, if_pos (by rw [hb]; rfl)]
  by_cases hnl : c = '\n'
  · rw [if_pos hnl, if_pos hnl]
  · rw [if_neg hnl, if_neg hnl]

theorem newStep_space_flush (st : NewState) (c : Char)
    (hsp : Halfpike.isSpaceRune c = true) (hb : st.buff.isEmpty = false) :
    newStep st c = ⟨st.items ++ [flushItem st.buff st.isNumber st.isFloat] ++
      [if c = '\n' then Item.mk .eol "\n" else Item.mk .space (String.mk [c])],
      [], false, false⟩ := by
  rw [newStep, if_pos hsp, if_neg (by rw [hb]; exact Bool.false_ne_true)]
  by_cases hnl : c = '\n'
  · rw [if_pos hnl, if_pos hnl]
  · rw [if_neg hnl, if_neg hnl]

theorem lastIsSpace_concat_space (items : List Item) (c : Char) :
    lastIsSpace (items ++
      [if c = '\n' then Item.mk .eol "\n" else Item.mk .space (String.mk [c])]) =
      (c != '\n') := by
  rw [lastIsSpace, List.getLast?_concat]
  by_cases hnl : c = '\n'
  · subst hnl
    rfl
  · rw [if_neg hnl]
    have hb : (c != '\n') = true := by simp [hnl]
    rw [hb]
    rfl

theorem isEmpty_concat (items : List Item) (x : Item) :
    (items ++ [x]).isEmpty = false := by
  cases items <;> rfl

theorem dropWhile_head_false (p : Char → Bool) :
    ∀ (l : List Char) (d : Char) (t : List Char),
      l.dropWhile p = d :: t → p d = false := by
  intro l
  induction l with
  | nil => intro d t h; exact absurd h (by simp [List.dropWhile])
  | cons a l ih =>
    intro d t h
    simp only [List.dropWhile] at h
    by_cases hpa : p a = true
    · rw [hpa] at h
      simp only [if_true] at h
      exact ih d t h
    · have hpa' : p a = false := by
        cases hh : p a
        · rfl
        · exact absurd hh hpa
      rw [hpa'] at h
      simp only [Bool.false_eq_true, if_false] at h
      cases h
      exact hpa'

theorem length_dropWhile_le' (p : Char → Bool) (l : List Char) :
    (l.dropWhile p).length ≤ l.length := by
  induction l with
  | nil => simp [List.dropWhile]
  | cons a l ih =>
    simp only [List.dropWhile]
    split
    · exact Nat.le_trans ih (Nat.le_succ _)
    · simp

end LinePkg

namespace LinePkg

theorem refine_main_aux (n : Nat) :
    ∀ cs : List Char, cs.length = n →
      ∀ st : NewState, st.buff = [] → st.isNumber = false → st.isFloat = false →
        finishItems (List.foldl newStep st cs) =
          st.items ++ refLexGo st.items.isEmpty (lastIsSpace st.items) cs := by
  induction n using Nat.strong_induction_on with
  | _ n ih =>
    intro cs hlen st hb hn hf
    cases cs with
    | nil =>
      rw [List.foldl_nil, finishItems, if_pos (by rw [hb]; rfl)]
      simp only [refLexGo, List.append_nil]
    | cons c cs' =>
      by_cases hsp : Halfpike.isSpaceRune c = true
      · rw [List.foldl_cons, newStep_space_empty st c hsp hb]
        have hlt : cs'.length < n := by
          rw [← hlen]; simp
        rw [ih cs'.length hlt cs' rfl
          { st with items := st.items ++
            [if c = '\n' then Item.mk ItemType.eol "\n"
             else Item.mk ItemType.space (String.mk [c])] }
          hb hn hf]
        rw [refLexGo_space _ _ c cs' hsp]
        simp [isEmpty_concat, lastIsSpace_concat_space, List.append_assoc]
      · have hsp' : Halfpike.isSpaceRune c = false := by
          cases h : Halfpike.isSpaceRune c
          · rfl
          · exact absurd h hsp
        have hcs : c :: cs' =
            (c :: cs'.takeWhile (fun x => !Halfpike.isSpaceRune x)) ++
              cs'.dropWhile (fun x => !Halfpike.isSpaceRune x) := by
          rw [List.cons_append, List.takeWhile_append_dropWhile]
        have hrun_ns : ∀ y ∈ c :: cs'.takeWhile (fun x => !Halfpike.isSpaceRune x),
            Halfpike.isSpaceRune y = false := by
          intro y hy
          cases List.mem_cons.mp hy with
          | inl h => rw [h]; exact hsp'
          | inr h =>
            have h2 := List.mem_takeWhile_imp h
            simp only [Bool.not_eq_true'] at h2
            exact h2
        rw [refLexGo_run _ _ c cs' hsp']
        rw [hcs, List.foldl_append]
        rw [foldl_run _ st hrun_ns, hb, hn, hf]
        cases hrest : cs'.dropWhile (fun x => !Halfpike.isSpaceRune x) with
        | nil =>
          rw [List.foldl_nil, finishItems, if_neg (by simp)]
          simp [flushItem_classify, refLexGo]
        | cons d rest' =>
          have hd : Halfpike.isSpaceRune d = true := by
            have h2 := dropWhile_head_false (fun x => !Halfpike.isSpaceRune x)
              cs' d rest' hrest
            simp only [Bool.not_eq_false'] at h2
            exact h2
          have hlt : rest'.length < n := by
            have h1 := length_dropWhile_le' (fun x => !Halfpike.isSpaceRune x) cs'
            rw [hrest] at h1
            simp only [List.length_cons] at h1
            rw [← hlen]
            simp only [List.length_cons]
            omega
          rw [List.foldl_cons, newStep_space_flush _ d hd (by simp)]
          rw [ih rest'.length hlt rest' rfl _ rfl rfl rfl]
          rw [refLexGo_space false false d rest' hd]
          have hA : ∀ (xs : List Item) (a b : Item), (xs ++ [a, b]).isEmpty = false := by
            intro xs a b; cases xs <;> rfl
          have hB : ∀ (xs : List Item) (a : Item),
              lastIsSpace (xs ++ [a, if d = '\n' then Item.mk ItemType.eol "\n"
                else Item.mk ItemType.space (String.mk [d])]) = (d != '\n') := by
            intro xs a
            rw [show xs ++ [a, (if d = '\n' then Item.mk ItemType.eol "\n"
                else Item.mk ItemType.space (String.mk [d]))] =
              (xs ++ [a]) ++ [if d = '\n' then Item.mk ItemType.eol "\n"
                else Item.mk ItemType.space (String.mk [d])] from by simp,
              lastIsSpace_concat_space]
          simp [flushItem_classify, List.append_assoc, hA, hB]

end LinePkg

namespace LinePkg

/-- Claim C7 (amended): line.New tokenizes each maximal non-space run into a
single item whose type is given by the reference classification
classifyRun — a run of digits and dots starting with a digit is Integer, or
Float when one or more dots occur after the first digit; otherwise the run
is numeric exactly when its last character that is neither a digit nor a
dot is a minus sign lying in the line's first run or opening a run right
after a Space token, Float when a dot follows that minus sign; every other
run is Text — and each space character becomes its own Space (or
EndOfLine) token: the lexer New equals the reference lexer refNew built
from the amended specification text, on every input. -/
theorem NewItems_eq_refNew : ∀ cs : List Char, NewItems cs = refNew cs := by
  intro cs
  have h := refine_main_aux cs.length cs rfl ⟨[], [], false, false⟩ rfl rfl rfl
  have h' : finishItems (List.foldl newStep ⟨[], [], false, false⟩ cs) =
      refLexGo true false cs := h
  simp only [NewItems, h', refNew, refFixup]
  cases hl : (refLexGo true false cs).getLast? with
  | none => rfl
  | some it =>
    by_cases ht : it.type = ItemType.eol
    · simp [ht]
    · simp [ht]

end LinePkg
